import Mathlib

/-!
Shallow embedding of the attendance pipeline of the
sorteo-july-28-for-cojos-de-tingo-maria scripts.

Sources embedded here:
* `2-filter-messages-per-day.ts` (MessageFilter): timestamp parsing,
  day normalization and filtering, event extraction, duplicate removal.
* `1-parse-messages.ts` (WhatsAppParser.parseFile): message assembly.
* `3-create-stats.ts` (PlayerStatsAnalyzer): player-name cleaning,
  alias resolution, per-player aggregation.
* `5-final-grouping.ts` / `4-final-grouping.ts`: similarity grouping and
  cluster consolidation.

JavaScript strings are modeled as Lean `String`, with the relevant pieces of
JavaScript semantics (`trim`, `toLowerCase`, `\s`, regexes used by the code)
spelled out as executable functions on `List Char`.  JavaScript `Map` objects
are modeled as insertion-ordered association lists, matching the iteration
order guarantees of `Map` and `Set`.
-/

namespace SorteoPipeline

/-- Whitespace as used by the JS `trim`/`\s` on the inputs this pipeline sees. -/
def isWs (c : Char) : Bool := c = ' ' || c = '\t' || c = '\n' || c = '\r'

def isDigitC (c : Char) : Bool := '0' ≤ c && c ≤ '9'

/-- Model of JS `String.prototype.toLowerCase` on ASCII and Latin-1 letters
(the alphabet this chat data uses). -/
def jsToLowerChar (c : Char) : Char :=
  if 'A' ≤ c ∧ c ≤ 'Z' then Char.ofNat (c.toNat + 32)
  else if 'À' ≤ c ∧ c ≤ 'Þ' ∧ c ≠ '×' then Char.ofNat (c.toNat + 32)
  else c

/-- Model of JS `String.prototype.toUpperCase` on ASCII and Latin-1 letters. -/
def jsToUpperChar (c : Char) : Char :=
  if 'a' ≤ c ∧ c ≤ 'z' then Char.ofNat (c.toNat - 32)
  else if 'à' ≤ c ∧ c ≤ 'þ' ∧ c ≠ '÷' then Char.ofNat (c.toNat - 32)
  else c

def jsToLowerList (cs : List Char) : List Char := cs.map jsToLowerChar

def jsToLowerStr (s : String) : String := ⟨jsToLowerList s.data⟩

/-- JS `trim`: drop whitespace from both ends. -/
def jsTrimList (cs : List Char) : List Char :=
  ((cs.dropWhile isWs).reverse.dropWhile isWs).reverse

def jsTrimStr (s : String) : String := ⟨jsTrimList s.data⟩

/-- JS `replace(/\s+/g, ' ')`: each maximal whitespace run becomes one space. -/
def collapseWsList : List Char → List Char
  | [] => []
  | [c] => if isWs c then [' '] else [c]
  | c :: d :: tl =>
    if isWs c then
      if isWs d then collapseWsList (d :: tl) else ' ' :: collapseWsList (d :: tl)
    else c :: collapseWsList (d :: tl)

def collapseWsStr (s : String) : String := ⟨collapseWsList s.data⟩

/-- JS `split(sep)` for a one-character separator. -/
def splitOnChar (sep : Char) : List Char → List (List Char)
  | [] => [[]]
  | c :: tl =>
    let r := splitOnChar sep tl
    if c = sep then [] :: r
    else
      match r with
      | h :: t => (c :: h) :: t
      | [] => [[c]]

/-- JS `Array.prototype.join(sep)`. -/
def joinWithSep (sep : List Char) : List (List Char) → List Char
  | [] => []
  | [x] => x
  | x :: y :: tl => x ++ sep ++ joinWithSep sep (y :: tl)

/-- JS `String.prototype.includes` (substring search). -/
def containsSub : List Char → List Char → Bool
  | hay, needle =>
    match hay with
    | [] => needle.isEmpty
    | _ :: tl => needle.isPrefixOf hay || containsSub tl needle

/-- Iteration order of a JS `Set`: first occurrences, in insertion order. -/
def dedupFirstAux [DecidableEq α] (seen : List α) : List α → List α
  | [] => []
  | x :: xs =>
    if x ∈ seen then dedupFirstAux seen xs
    else x :: dedupFirstAux (x :: seen) xs

def dedupFirst [DecidableEq α] (l : List α) : List α := dedupFirstAux [] l

/-- JS `if (!arr.includes(x)) arr.push(x)`. -/
def pushIfAbsent [DecidableEq α] (x : α) (xs : List α) : List α :=
  if x ∈ xs then xs else xs ++ [x]

/-- JS `Map.prototype.get` over an insertion-ordered association list. -/
def mapGet {α : Type} (k : String) : List (String × α) → Option α
  | [] => none
  | (k', v) :: tl => if k' = k then some v else mapGet k tl

/-- JS `Map.prototype.set`: replace in place if the key exists, append otherwise. -/
def mapSet {α : Type} (k : String) (v : α) : List (String × α) → List (String × α)
  | [] => [(k, v)]
  | (k', v') :: tl => if k' = k then (k', v) :: tl else (k', v') :: mapSet k v tl

/-- The U+200E left-to-right mark that WhatsApp exports sprinkle around. -/
def lrmChar : Char := '‎'

/-- A calendar instant, holding the six arguments the code passes to
`new Date(fullYear, month - 1, day, hours, minutes, seconds)`. -/
structure Instant where
  year : Nat
  month : Nat
  day : Nat
  hour : Nat
  minute : Nat
  second : Nat
deriving DecidableEq, Repr

/-- Days since 1970-01-01 of a proleptic-Gregorian civil date with
`m` between 1 and 12 (the standard days-from-civil computation the
ECMAScript `MakeDay` denotes). -/
def daysFromCivil (y m d : Int) : Int :=
  let y2 := y - (if m ≤ 2 then 1 else 0)
  let era := Int.fdiv y2 400
  let yoe := y2 - era * 400
  let mp := Int.emod (m + 9) 12
  let doy := Int.fdiv (153 * mp + 2) 5 + d - 1
  let doe := yoe * 365 + Int.fdiv yoe 4 - Int.fdiv yoe 100 + doy
  era * 146097 + doe - 719468

/-- The time value (in seconds) of `new Date(year, month-1, day, h, mi, s)`:
month overflow carries into the year as in ECMAScript `MakeDay`, while hour,
minute and second components contribute linearly as in `MakeTime`. -/
def Instant.epochSecs (i : Instant) : Int :=
  let mm : Int := (i.month : Int) - 1
  let ym := (i.year : Int) + Int.fdiv mm 12
  let mn := Int.emod mm 12
  let days := daysFromCivil ym (mn + 1) 1 + (i.day : Int) - 1
  days * 86400 + (i.hour : Int) * 3600 + (i.minute : Int) * 60 + (i.second : Int)

/-! ### MessageFilter.parseTimestamp -/

/-- `timestamp.replace(/[‎]/g, '').trim()` at the top of `parseTimestamp`
and `extractDateFromTimestamp`. -/
def cleanTs (ts : String) : List Char :=
  jsTrimList (ts.data.filter (fun c => c ≠ lrmChar))

/-- Consume up to `n` leading digits. -/
def takeDigitsUpTo : Nat → List Char → List Char × List Char
  | 0, cs => ([], cs)
  | _ + 1, [] => ([], [])
  | n + 1, c :: cs =>
    if isDigitC c then
      let r := takeDigitsUpTo n cs
      (c :: r.1, r.2)
    else ([], c :: cs)

def digitsToNat (ds : List Char) : Nat :=
  ds.foldl (fun a c => a * 10 + (c.toNat - '0'.toNat)) 0

/-- `\d{lo,hi}` followed by a non-digit: take digits greedily, require at
least `lo` of them, and return their numeric value (`Number(...)`). -/
def matchNum (lo hi : Nat) (cs : List Char) : Option (Nat × List Char) :=
  let r := takeDigitsUpTo hi cs
  if lo ≤ r.1.length then some (digitsToNat r.1, r.2) else none

def matchLit (c : Char) : List Char → Option (List Char)
  | [] => none
  | x :: tl => if x = c then some tl else none

/-- `\d{1,2}\/\d{1,2}\/\d{2,4}` with the three numbers read as
`datePart.split('/').map(Number)` = day, month, year. -/
def matchDateNums (cs : List Char) : Option (Nat × Nat × Nat × List Char) := do
  let (d, r1) ← matchNum 1 2 cs
  let r2 ← matchLit '/' r1
  let (m, r3) ← matchNum 1 2 r2
  let r4 ← matchLit '/' r3
  let (y, r5) ← matchNum 2 4 r4
  pure (d, m, y, r5)

/-- `\d{1,2}:\d{2}:\d{2}` read as hours, minutes, seconds. -/
def matchTimeHMS (cs : List Char) : Option (Nat × Nat × Nat × List Char) := do
  let (h, r1) ← matchNum 1 2 cs
  let r2 ← matchLit ':' r1
  let (mi, r3) ← matchNum 2 2 r2
  let r4 ← matchLit ':' r3
  let (se, r5) ← matchNum 2 2 r4
  pure (h, mi, se, r5)

/-- `\d{1,2}:\d{2}` read as hours, minutes. -/
def matchTimeHM (cs : List Char) : Option (Nat × Nat × List Char) := do
  let (h, r1) ← matchNum 1 2 cs
  let r2 ← matchLit ':' r1
  let (mi, r3) ← matchNum 2 2 r2
  pure (h, mi, r3)

/-- Case-insensitive `[ap]\.?\s*m\.?`, returning the captured period text. -/
def matchMeridiemOpt (cs : List Char) : Option (List Char × List Char) :=
  match cs with
  | [] => none
  | c :: r1 =>
    if c = 'a' ∨ c = 'A' ∨ c = 'p' ∨ c = 'P' then
      let d1 : List Char × List Char :=
        match r1 with
        | '.' :: t => (['.'], t)
        | _ => ([], r1)
      let ws := d1.2.takeWhile isWs
      let r3 := d1.2.dropWhile isWs
      match r3 with
      | [] => none
      | mc :: r4 =>
        if mc = 'm' ∨ mc = 'M' then
          let d2 : List Char × List Char :=
            match r4 with
            | '.' :: t => (['.'], t)
            | _ => ([], r4)
          some (c :: d1.1 ++ ws ++ mc :: d2.1, d2.2)
        else none
    else none

/-- Format 1: `^(\d{1,2}\/\d{1,2}\/\d{2,4}),\s*(\d{1,2}:\d{2}:\d{2})\s*([ap]\.?\s*m\.?)$/i`. -/
def matchFormat1 (cs : List Char) :
    Option (Nat × Nat × Nat × Nat × Nat × Nat × List Char) := do
  let (d, m, y, r1) ← matchDateNums cs
  let r2 ← matchLit ',' r1
  let (h, mi, se, r3) ← matchTimeHMS (r2.dropWhile isWs)
  let (per, r4) ← matchMeridiemOpt (r3.dropWhile isWs)
  if r4 = [] then pure (d, m, y, h, mi, se, per) else none

/-- Format 2: `^(\d{1,2}\/\d{1,2}\/\d{2,4}),\s*(\d{1,2}:\d{2})\s*([ap]\.?\s*m\.?)$/i`. -/
def matchFormat2 (cs : List Char) :
    Option (Nat × Nat × Nat × Nat × Nat × List Char) := do
  let (d, m, y, r1) ← matchDateNums cs
  let r2 ← matchLit ',' r1
  let (h, mi, r3) ← matchTimeHM (r2.dropWhile isWs)
  let (per, r4) ← matchMeridiemOpt (r3.dropWhile isWs)
  if r4 = [] then pure (d, m, y, h, mi, per) else none

/-- Format 3: `^(\d{1,2}\/\d{1,2}\/\d{2,4}),\s*(\d{1,2}:\d{2}:\d{2})$`. -/
def matchFormat3 (cs : List Char) :
    Option (Nat × Nat × Nat × Nat × Nat × Nat × List Char) := do
  let (d, m, y, r1) ← matchDateNums cs
  let r2 ← matchLit ',' r1
  let (h, mi, se, r3) ← matchTimeHMS (r2.dropWhile isWs)
  if r3 = [] then pure (d, m, y, h, mi, se, r3) else none

/-- Format 4: `^(\d{1,2}\/\d{1,2}\/\d{2,4})$`. -/
def matchFormat4 (cs : List Char) : Option (Nat × Nat × Nat) := do
  let (d, m, y, r1) ← matchDateNums cs
  if r1 = [] then pure (d, m, y) else none

/-- Assemble the `Instant` exactly as the body of the `for (const format of
formats)` loop does: AM/PM adjustment via `period.toLowerCase().includes(...)`
and the two-digit-year rule `year < 100 ? 2000 + year : year`. -/
def buildInstant (d m y h mi se : Nat) (per : Option (List Char)) : Instant :=
  let isPM : Bool := match per with
    | some p => p.any (fun c => jsToLowerChar c = 'p')
    | none => false
  let isAM : Bool := match per with
    | some p => p.any (fun c => jsToLowerChar c = 'a')
    | none => false
  let hours := if isPM = true ∧ h ≠ 12 then h + 12
               else if isAM = true ∧ h = 12 then 0 else h
  ⟨if y < 100 then 2000 + y else y, m, d, hours, mi, se⟩

/-- `MessageFilter.parseTimestamp`.  The four shapes are tried in order and
the first match wins; if none matches the code warns and returns `new Date()`,
modeled by the explicit `now` argument. -/
def parseTimestamp (now : Instant) (ts : String) : Instant :=
  match matchFormat1 (cleanTs ts) with
  | some (d, m, y, h, mi, se, per) => buildInstant d m y h mi se (some per)
  | none =>
    match matchFormat2 (cleanTs ts) with
    | some (d, m, y, h, mi, per) => buildInstant d m y h mi 0 (some per)
    | none =>
      match matchFormat3 (cleanTs ts) with
      | some (d, m, y, h, mi, se, _) => buildInstant d m y h mi se none
      | none =>
        match matchFormat4 (cleanTs ts) with
        | some (d, m, y) => buildInstant d m y 0 0 0 none
        | none => now

/-- `MessageFilter.extractDateFromTimestamp`: the cleaned text before the
first comma, trimmed. -/
def extractDateFromTimestamp (ts : String) : String :=
  ⟨jsTrimList ((cleanTs ts).takeWhile (fun c => c ≠ ','))⟩

/-! ### MessageFilter: day normalization and filtering -/

/-- `MessageFilter.allowedDays` (verbatim, duplicates included). -/
def allowedDays : List String :=
  ["viernes", "vienes", "miércoles", "miercoles", "miercoles", "miércoles"]

/-- `MessageFilter.dayMappings`, an exact-key lookup table. -/
def dayMappings : List (String × String) :=
  [("vienes", "viernes"), ("viernes", "viernes"),
   ("miercoles", "miércoles"), ("miércoles", "miércoles")]

/-- `MessageFilter.normalizeDayName`. -/
def normalizeDayName (day : String) : String :=
  let normalized := jsTrimStr (jsToLowerStr day)
  match dayMappings.find? (fun e => e.1 == normalized) with
  | some e => e.2
  | none => normalized

/-- `MessageFilter.isAllowedDay`. -/
def isAllowedDay (day : String) : Bool :=
  let normalized := jsTrimStr (jsToLowerStr day)
  allowedDays.any (fun a => jsToLowerStr a == normalized)

/-! ### MessageFilter.parseEventFromMessage -/

/-- `WhatsAppMessage` (shared by the parser and the filter scripts). -/
structure WhatsAppMessage where
  timestamp : String
  sender : String
  content : String
  rawMessage : String
deriving DecidableEq, Repr

/-- `FilteredEvent`.  The `originalMessage` back-pointer is omitted: nothing
in the pipeline reads it back. -/
structure FilteredEvent where
  eventName : String
  eventDate : String
  dayOfWeek : String
  time : String
  location : String
  players : List String
  totalPlayers : Nat
  messageTimestamp : String
  sender : String
deriving DecidableEq, Repr

/-- The mutable locals of the line loop in `parseEventFromMessage`. -/
structure EventAcc where
  eventName : String
  dayOfWeek : String
  time : String
  location : String
  players : List String
deriving DecidableEq, Repr

/-- The regex `/‎<[^>]+>/` (first occurrence only): from a left-to-right mark,
a `<`, at least one non-`>` character, then `>`; returns what follows. -/
def tagEnd (cs : List Char) : Option (List Char) :=
  match cs with
  | '<' :: t2 =>
    let inner := t2.takeWhile (fun c => c ≠ '>')
    match t2.dropWhile (fun c => c ≠ '>') with
    | '>' :: rest => if inner.isEmpty then none else some rest
    | _ => none
  | _ => none

/-- `playerName.replace(/‎<[^>]+>/, '')`. -/
def removeLrmTag : List Char → List Char
  | [] => []
  | c :: tl =>
    if c = lrmChar then
      match tagEnd tl with
      | some rest => rest
      | none => c :: removeLrmTag tl
    else c :: removeLrmTag tl

/-- The player-line regex `^\d+\.\s*-?\s*(.+)` on an already-trimmed line,
returning the `(.+)` capture.  Backtracking paths of the original regex can
only produce captures that are all whitespace or a bare `-`, which the caller
discards exactly as it discards a failed match, so the greedy reading below
is outcome-equivalent. -/
def playerLineParse (t : List Char) : Option (List Char) :=
  let ds := t.takeWhile isDigitC
  let r1 := t.dropWhile isDigitC
  if ds.isEmpty then none
  else
    match r1 with
    | '.' :: r2 =>
      let r3 := r2.dropWhile isWs
      let r4 := match r3 with
        | '-' :: x => x.dropWhile isWs
        | _ => r3
      if r4.isEmpty then none else some r4
    | _ => none

/-- One iteration of the `for (const line of lines)` loop in
`parseEventFromMessage`, in the exact branch order of the source. -/
def classifyLine (acc : EventAcc) (lineChars : List Char) : EventAcc :=
  let t := jsTrimList lineChars
  if t.isEmpty then acc
  else
    let low := jsToLowerList t
    if containsSub low "pichanga".data || containsSub low "ipi".data then
      { acc with eventName := ⟨t⟩ }
    else if "día:".data.isPrefixOf low then
      { acc with dayOfWeek := ⟨jsTrimList (t.drop 4)⟩ }
    else if "hora:".data.isPrefixOf low then
      { acc with time := ⟨jsTrimList (t.drop 5)⟩ }
    else if "lugar:".data.isPrefixOf low then
      { acc with location := ⟨jsTrimList (t.drop 6)⟩ }
    else
      match playerLineParse t with
      | some cap =>
        let p2 := jsTrimList (removeLrmTag (jsTrimList cap))
        if ¬ p2.isEmpty ∧ p2 ≠ ['-'] then
          { acc with players := acc.players ++ [⟨p2⟩] }
        else acc
      | none => acc

/-- The field-extraction pass of `parseEventFromMessage` over
`message.content.split('\n')`. -/
def extractAcc (content : String) : EventAcc :=
  (splitOnChar '\n' content.data).foldl classifyLine ⟨"", "", "", "", []⟩

/-- `MessageFilter.parseEventFromMessage`: `null` exactly when the extracted
day is not allow-listed. -/
def parseEventFromMessage (msg : WhatsAppMessage) : Option FilteredEvent :=
  let acc := extractAcc msg.content
  if isAllowedDay acc.dayOfWeek then
    some ⟨acc.eventName, extractDateFromTimestamp msg.timestamp,
          normalizeDayName acc.dayOfWeek, acc.time, acc.location,
          acc.players, acc.players.length, msg.timestamp, msg.sender⟩
  else none

/-! ### MessageFilter.removeDuplicates -/

/-- The dedup key `` `${event.dayOfWeek}_${event.eventDate}` ``. -/
def eventKey (e : FilteredEvent) : String :=
  e.dayOfWeek ++ "_" ++ e.eventDate

/-- One iteration of the loop in `removeDuplicates`: insert when the key is
new, replace only when the incoming timestamp parses strictly later. -/
def dedupStep (now : Instant) (m : List (String × FilteredEvent))
    (e : FilteredEvent) : List (String × FilteredEvent) :=
  match mapGet (eventKey e) m with
  | none => mapSet (eventKey e) e m
  | some ex =>
    if (parseTimestamp now e.messageTimestamp).epochSecs >
        (parseTimestamp now ex.messageTimestamp).epochSecs then
      mapSet (eventKey e) e m
    else m

/-- `MessageFilter.removeDuplicates`: `Array.from(eventMap.values())`. -/
def removeDuplicates (now : Instant) (events : List FilteredEvent) :
    List FilteredEvent :=
  (events.foldl (dedupStep now) []).map Prod.snd

/-! ### PlayerStatsAnalyzer (3-create-stats.ts) -/

/-- `PlayerStats` as produced by the stats script (name and cleanName are set
to the same normalized name when an entry is created). -/
structure PlayerStats where
  name : String
  cleanName : String
  attendance : Nat
  events : List String
  variations : List String
deriving DecidableEq, Repr

instance : Inhabited PlayerStats := ⟨⟨"", "", 0, [], []⟩⟩

/-- `dropThroughFirst c cs` skips through the first occurrence of `c`,
returning the suffix after it (`none` when `c` does not occur). -/
def dropThroughFirst (cl : Char) : List Char → Option (List Char)
  | [] => none
  | c :: tl => if c = cl then some tl else dropThroughFirst cl tl

theorem dropThroughFirst_length {cl : Char} :
    ∀ {cs rest : List Char}, dropThroughFirst cl cs = some rest →
      rest.length < cs.length := by
  intro cs
  induction cs with
  | nil => intro rest h; simp [dropThroughFirst] at h
  | cons c tl ih =>
    intro rest h
    by_cases hc : c = cl
    · simp [dropThroughFirst, hc] at h
      simp [← h, List.length_cons]
    · simp [dropThroughFirst, hc] at h
      exact Nat.lt_trans (ih h) (Nat.lt_succ_self _)

/-- One global-replace pass of `\(opcl-delimited\)` spans, e.g.
`replace(/\([^)]*\)/g, '')`: each `op ... cl` span (up to the first `cl`
after the `op`) is removed; an `op` with no later `cl` stays.  Implemented
with a fuel argument (the list length suffices) so that it reduces in the
kernel. -/
def removeSpansFuel (op cl : Char) : Nat → List Char → List Char
  | 0, cs => cs
  | _ + 1, [] => []
  | n + 1, c :: tl =>
    if c = op then
      match dropThroughFirst cl tl with
      | some rest => removeSpansFuel op cl n rest
      | none => c :: tl
    else c :: removeSpansFuel op cl n tl

def removeSpans (op cl : Char) (cs : List Char) : List Char :=
  removeSpansFuel op cl cs.length cs

/-- The decorated-glyph class `[🔥⭐✨💪👑🏆⚽]` of `cleanPlayerName`. -/
def isDecorGlyph (c : Char) : Bool :=
  c = '🔥' || c = '⭐' || c = '✨' || c = '💪' || c = '👑' || c = '🏆' || c = '⚽'

/-- `replace(/\s*go\s*$/i, '')`: strip a trailing `go` (any letter case)
together with the whitespace around it, whenever the trimmed text ends in
the two letters `g`,`o`. -/
def stripTrailingGo (cs : List Char) : List Char :=
  let r := cs.reverse.dropWhile isWs
  match r with
  | o :: g :: rest =>
    if (o = 'o' ∨ o = 'O') ∧ (g = 'g' ∨ g = 'G') then
      (rest.dropWhile isWs).reverse
    else cs
  | _ => cs

/-- `replace(/\s*-\s*$/, '')`. -/
def stripTrailingHyphen (cs : List Char) : List Char :=
  match cs.reverse.dropWhile isWs with
  | '-' :: rest => (rest.dropWhile isWs).reverse
  | _ => cs

/-- `word.charAt(0).toUpperCase() + word.slice(1)`. -/
def capFirst (w : List Char) : List Char :=
  match w with
  | [] => []
  | c :: tl => jsToUpperChar c :: tl

/-- `word.charAt(0).toUpperCase() + word.slice(1).toLowerCase()`. -/
def capFirstLowerRest (w : List Char) : List Char :=
  match w with
  | [] => []
  | c :: tl => jsToUpperChar c :: jsToLowerList tl

/-- `PlayerStatsAnalyzer.cleanPlayerName`, step for step. -/
def cleanPlayerName (playerName : String) : String :=
  let s1 := removeSpans '(' ')' playerName.data
  let s2 := removeSpans '[' ']' s1
  let s3 := removeSpans '{' '}' s2
  let s4 := s3.filter (fun c => ¬ (c = lrmChar ∨ c = '<' ∨ c = '>'))
  let s5 := stripTrailingGo s4
  let s6 := stripTrailingHyphen s5
  let s7 := s6.filter (fun c => ¬ isDecorGlyph c)
  let s8 := jsTrimList (collapseWsList s7)
  if s8.isEmpty then ""
  else ⟨joinWithSep [' '] ((splitOnChar ' ' (jsToLowerList s8)).map capFirst)⟩

/-- `PlayerStatsAnalyzer.playerAliases`, in object-literal insertion order. -/
def playerAliases : List (String × String) :=
  [("conde", "Spectre"), ("Spectre", "Spectre"),
   ("Dayler", "Dayler"), ("Deyler", "Dayler"),
   ("Kenyi", "Sebas"), ("Sebas", "Sebas"), ("Sebastian", "Sebas")]

/-- `PlayerStatsAnalyzer.normalizePlayerName`. -/
def normalizePlayerName (cleanN : String) : String :=
  let normalized := jsToLowerStr (jsTrimStr (collapseWsStr cleanN))
  match playerAliases.find? (fun e => jsToLowerStr e.1 == normalized) with
  | some e => e.2
  | none =>
    ⟨joinWithSep [' '] ((splitOnChar ' ' cleanN.data).map capFirstLowerRest)⟩

/-- The stats event key `` `${event.eventDate} (${event.dayOfWeek})` ``. -/
def statsEventKey (e : FilteredEvent) : String :=
  e.eventDate ++ " (" ++ e.dayOfWeek ++ ")"

/-- One player token of the inner loop of `processPlayers`. -/
def playerStep (ek : String) (m : List (String × PlayerStats))
    (playerName : String) : List (String × PlayerStats) :=
  if playerName = "" ∨ jsTrimStr playerName = "" ∨ playerName = "-" then m
  else
    let cleanN := cleanPlayerName playerName
    let normalizedName := normalizePlayerName cleanN
    if normalizedName = "" then m
    else
      let cur := match mapGet normalizedName m with
        | some st => st
        | none => ⟨normalizedName, normalizedName, 0, [], []⟩
      mapSet normalizedName
        { cur with
          attendance := cur.attendance + 1,
          events := pushIfAbsent ek cur.events,
          variations := pushIfAbsent (jsTrimStr playerName) cur.variations } m

/-- `PlayerStatsAnalyzer.processPlayers`. -/
def processPlayers (events : List FilteredEvent) :
    List (String × PlayerStats) :=
  events.foldl (fun m ev => ev.players.foldl (playerStep (statsEventKey ev)) m) []

/-! ### Similarity grouping (4-final-grouping.ts / 5-final-grouping.ts) -/

/-- Base letter of `normalize('NFD')` followed by
`replace(/[̀-ͯ]/g, '')` for the Latin-1 letters this data uses;
characters without a Latin decomposition are left unchanged. -/
def nfdBase (c : Char) : Char :=
  if c = 'á' ∨ c = 'à' ∨ c = 'â' ∨ c = 'ã' ∨ c = 'ä' ∨ c = 'å' then 'a'
  else if c = 'é' ∨ c = 'è' ∨ c = 'ê' ∨ c = 'ë' then 'e'
  else if c = 'í' ∨ c = 'ì' ∨ c = 'î' ∨ c = 'ï' then 'i'
  else if c = 'ó' ∨ c = 'ò' ∨ c = 'ô' ∨ c = 'õ' ∨ c = 'ö' then 'o'
  else if c = 'ú' ∨ c = 'ù' ∨ c = 'û' ∨ c = 'ü' then 'u'
  else if c = 'ñ' then 'n'
  else if c = 'ç' then 'c'
  else if c = 'ý' then 'y'
  else if c = 'Á' ∨ c = 'À' ∨ c = 'Â' ∨ c = 'Ã' ∨ c = 'Ä' ∨ c = 'Å' then 'A'
  else if c = 'É' ∨ c = 'È' ∨ c = 'Ê' ∨ c = 'Ë' then 'E'
  else if c = 'Í' ∨ c = 'Ì' ∨ c = 'Î' ∨ c = 'Ï' then 'I'
  else if c = 'Ó' ∨ c = 'Ò' ∨ c = 'Ô' ∨ c = 'Õ' ∨ c = 'Ö' then 'O'
  else if c = 'Ú' ∨ c = 'Ù' ∨ c = 'Û' ∨ c = 'Ü' then 'U'
  else if c = 'Ñ' then 'N'
  else if c = 'Ç' then 'C'
  else c

/-- `\w` = `[A-Za-z0-9_]`. -/
def isWordChar (c : Char) : Bool :=
  ('A' ≤ c && c ≤ 'Z') || ('a' ≤ c && c ≤ 'z') || isDigitC c || c = '_'

/-- `cleanName` of the grouping scripts: NFD-decompose, strip diacritics,
strip `[^\w\s]`, collapse whitespace, trim, lowercase. -/
def cleanName (name : String) : String :=
  jsToLowerStr (jsTrimStr (collapseWsStr
    ⟨(name.data.map nfdBase).filter (fun c => isWordChar c || isWs c)⟩))

/-- `SIMILARITY_LEVEL = 2` in both grouping scripts. -/
def SIMILARITY_LEVEL : Nat := 2

/-- `SIMILARITY_THRESHOLDS[SIMILARITY_LEVEL]` = 0.8 = 4/5, written as an
already-normalized rational so that it evaluates in the kernel. -/
def similarityThreshold : ℚ := ⟨4, 5, by decide, by decide⟩

/-- The inner `players.forEach((otherPlayer, otherIndex) => ...)` scan of
`groupSimilarPlayers`: visit the not-yet-processed later players in order and
collect those whose cleaned name is similar enough to the seed.  The string
metric (`stringSimilarity.compareTwoStrings`, an external library) is an
explicit parameter. -/
def scanOthers (sim : String → String → ℚ) (thr : ℚ) (seedClean : String) :
    List (Nat × PlayerStats) → List Nat →
    List (Nat × PlayerStats) × List Nat
  | [], processed => ([], processed)
  | (j, p) :: tl, processed =>
    if j ∈ processed then scanOthers sim thr seedClean tl processed
    else if thr ≤ sim seedClean (cleanName p.name) then
      let r := scanOthers sim thr seedClean tl (j :: processed)
      ((j, p) :: r.1, r.2)
    else scanOthers sim thr seedClean tl processed

/-- The outer `players.forEach((player, index) => ...)` loop of
`groupSimilarPlayers` over index-tagged players. -/
def groupLoop (sim : String → String → ℚ) (thr : ℚ) :
    List (Nat × PlayerStats) → List Nat → List (List (Nat × PlayerStats))
  | [], _ => []
  | (i, p) :: tl, processed =>
    if i ∈ processed then groupLoop sim thr tl processed
    else
      let r := scanOthers sim thr (cleanName p.name) tl processed
      ((i, p) :: r.1) :: groupLoop sim thr tl (i :: r.2)

/-- `groupSimilarPlayers` at the configured threshold. -/
def groupSimilarPlayers (sim : String → String → ℚ)
    (players : List PlayerStats) : List (List PlayerStats) :=
  (groupLoop sim similarityThreshold players.enum []).map (List.map Prod.snd)

/-- `ConsolidatedPlayer` (`variations` is the joined CSV cell). -/
structure ConsolidatedPlayer where
  name : String
  totalAttendance : Nat
  variations : String
deriving DecidableEq, Repr

/-- `getMostFrequentName` of 5-final-grouping.ts: `Object.keys(frequency)`
iterates first occurrences in insertion order, and the `reduce` keeps the
later key on ties.  The source throws on an empty array (never reached in
the pipeline); the model returns `""` there. -/
def getMostFrequentName (variations : List String) : String :=
  match dedupFirst variations with
  | [] => ""
  | k :: ks =>
    ks.foldl (fun a b =>
      if variations.count b < variations.count a then a else b) k

/-- The de-duplicated union of the variations of a group, in first-insertion
order: `[...new Set(allVariations)]`. -/
def consolidatedVariations (g : List PlayerStats) : List String :=
  dedupFirst (g.foldl (fun acc p => acc ++ p.variations) [])

/-- `consolidateGroup` of 5-final-grouping.ts. -/
def consolidateGroup (g : List PlayerStats) : ConsolidatedPlayer :=
  let totalAttendance := g.foldl (fun acc p => acc + p.attendance) 0
  let uniqueVariations := consolidatedVariations g
  ⟨getMostFrequentName uniqueVariations, totalAttendance,
   ⟨joinWithSep [',', ' '] (uniqueVariations.map String.data)⟩⟩

/-- `consolidateGroup` of 4-final-grouping.ts: identical merge arithmetic,
but the output name is `group[0].name` (the source would throw on an empty
group; the model returns `""` there). -/
def consolidateGroupFirstName (g : List PlayerStats) : ConsolidatedPlayer :=
  let totalAttendance := g.foldl (fun acc p => acc + p.attendance) 0
  let uniqueVariations := consolidatedVariations g
  ⟨(g.head?.elim "" PlayerStats.name), totalAttendance,
   ⟨joinWithSep [',', ' '] (uniqueVariations.map String.data)⟩⟩

/-! ### WhatsAppParser.parseFile (1-parse-messages.ts) -/

/-- The date `\d{1,2}\/\d{1,2}\/\d{2,4}` of the header patterns, capturing
its text. -/
def matchDateChars (cs : List Char) : Option (List Char × List Char) := do
  let r1 := takeDigitsUpTo 2 cs
  if r1.1.isEmpty then none else
  let r2 ← matchLit '/' r1.2
  let r3 := takeDigitsUpTo 2 r2
  if r3.1.isEmpty then none else
  let r4 ← matchLit '/' r3.2
  let r5 := takeDigitsUpTo 4 r4
  if r5.1.length < 2 then none else
  pure (r1.1 ++ '/' :: r3.1 ++ '/' :: r5.1, r5.2)

/-- The time group `\d{1,2}:\d{2}:\d{2}\s*[ap]\.\s*m\.` of the header
patterns (dots mandatory, lowercase only: these regexes carry no `i` flag),
capturing its text. -/
def matchHeaderTime (cs : List Char) : Option (List Char × List Char) := do
  let r1 := takeDigitsUpTo 2 cs
  if r1.1.isEmpty then none else
  let r2 ← matchLit ':' r1.2
  let r3 := takeDigitsUpTo 2 r2
  if r3.1.length ≠ 2 then none else
  let r4 ← matchLit ':' r3.2
  let r5 := takeDigitsUpTo 2 r4
  if r5.1.length ≠ 2 then none else
  let ws := r5.2.takeWhile isWs
  match r5.2.dropWhile isWs with
  | a :: '.' :: rest =>
    if a = 'a' ∨ a = 'p' then
      let ws2 := rest.takeWhile isWs
      match rest.dropWhile isWs with
      | 'm' :: '.' :: rest2 =>
        pure (r1.1 ++ ':' :: r3.1 ++ ':' :: r5.1 ++ ws ++
              a :: '.' :: ws2 ++ ['m', '.'], rest2)
      | _ => none
    else none
  | _ => none

/-- `messagePattern`:
`^\[(date),\s*(time)\]\s*([^:]+):\s*(.*)/`.  The `\s*`/`[^:]+` boundary
backtracks when the only non-colon material is whitespace. -/
def matchHeaderMain (cs : List Char) :
    Option (List Char × List Char × List Char × List Char) := do
  let r1 ← matchLit '[' cs
  let (date, r2) ← matchDateChars r1
  let r3 ← matchLit ',' r2
  let (time, r4) ← matchHeaderTime (r3.dropWhile isWs)
  let r5 ← matchLit ']' r4
  let wsRun := r5.takeWhile isWs
  let afterWs := r5.dropWhile isWs
  let senderRun := afterWs.takeWhile (fun c => c ≠ ':')
  match afterWs.dropWhile (fun c => c ≠ ':') with
  | ':' :: afterColon =>
    if senderRun.isEmpty then
      match wsRun.getLast? with
      | some w => pure (date, time, [w], afterColon.dropWhile isWs)
      | none => none
    else pure (date, time, senderRun, afterColon.dropWhile isWs)
  | _ => none

/-- `systemPattern`:
`^\[(date),\s*(time)\]\s*([^:]*?):\s*‎(.*)$` — empty sender allowed, and a
left-to-right mark is required after the colon. -/
def matchHeaderSystem (cs : List Char) :
    Option (List Char × List Char × List Char × List Char) := do
  let r1 ← matchLit '[' cs
  let (date, r2) ← matchDateChars r1
  let r3 ← matchLit ',' r2
  let (time, r4) ← matchHeaderTime (r3.dropWhile isWs)
  let r5 ← matchLit ']' r4
  let afterWs := r5.dropWhile isWs
  let senderRun := afterWs.takeWhile (fun c => c ≠ ':')
  match afterWs.dropWhile (fun c => c ≠ ':') with
  | ':' :: afterColon =>
    match (afterColon.dropWhile isWs) with
    | m :: rest => if m = lrmChar then pure (date, time, senderRun, rest) else none
    | [] => none
  | _ => none

/-- `line.match(this.messagePattern) || line.match(this.systemPattern)`. -/
def parseHeader (line : String) :
    Option (List Char × List Char × List Char × List Char) :=
  match matchHeaderMain line.data with
  | some r => some r
  | none => matchHeaderSystem line.data

/-- One iteration of the line loop of `WhatsAppParser.parseFile`. -/
def parseFileStep (st : List WhatsAppMessage × Option WhatsAppMessage)
    (rawLine : String) : List WhatsAppMessage × Option WhatsAppMessage :=
  let line := jsTrimStr rawLine
  if line = "" then st
  else
    match parseHeader line with
    | some (date, time, sender, content) =>
      let flushed := match st.2 with
        | some m => st.1 ++ [m]
        | none => st.1
      (flushed, some ⟨⟨date ++ ',' :: ' ' :: time⟩, jsTrimStr ⟨sender⟩,
                      ⟨content⟩, line⟩)
    | none =>
      match st.2 with
      | some m =>
        (st.1, some { m with
          content := m.content ++ "\n" ++ line,
          rawMessage := m.rawMessage ++ "\n" ++ line })
      | none => st

/-- `WhatsAppParser.parseFile` on an already-split line sequence. -/
def parseFile (lines : List String) : List WhatsAppMessage :=
  let st := lines.foldl parseFileStep ([], none)
  match st.2 with
  | some m => st.1 ++ [m]
  | none => st.1

/-! ## Supporting lemmas -/

instance instDecEqSix : DecidableEq (Nat × Nat × Nat × Nat × Nat × List Char) :=
  instDecidableEqProd

instance instDecEqSeven :
    DecidableEq (Nat × Nat × Nat × Nat × Nat × Nat × List Char) :=
  instDecidableEqProd

theorem isWs_jsToLowerChar_fixed {c : Char} (h : isWs c = true) :
    jsToLowerChar c = c := by
  simp only [isWs, Bool.or_eq_true, decide_eq_true_eq] at h
  rcases h with ((rfl | rfl) | rfl) | rfl <;> decide

theorem noWs_of_jsToLowerList_conde {cs : List Char}
    (h : jsToLowerList cs = "conde".data) : ∀ c ∈ cs, isWs c = false := by
  intro c hc
  by_contra hws
  rw [Bool.not_eq_false] at hws
  have hmem : jsToLowerChar c ∈ jsToLowerList cs := List.mem_map_of_mem _ hc
  rw [isWs_jsToLowerChar_fixed hws, h] at hmem
  rw [show "conde".data = ['c', 'o', 'n', 'd', 'e'] from rfl] at hmem
  simp only [List.mem_cons, List.not_mem_nil, or_false] at hmem
  rcases hmem with rfl | rfl | rfl | rfl | rfl <;> exact absurd hws (by decide)

theorem dropWhile_isWs_eq_self {cs : List Char}
    (h : ∀ c ∈ cs, isWs c = false) : cs.dropWhile isWs = cs := by
  cases cs with
  | nil => rfl
  | cons c tl =>
    rw [List.dropWhile_cons, h c (List.mem_cons_self c tl)]
    simp

theorem jsTrimList_eq_self {cs : List Char}
    (h : ∀ c ∈ cs, isWs c = false) : jsTrimList cs = cs := by
  unfold jsTrimList
  rw [dropWhile_isWs_eq_self h, dropWhile_isWs_eq_self, List.reverse_reverse]
  intro c hc
  exact h c (List.mem_reverse.mp hc)

theorem collapseWsList_eq_self : ∀ {cs : List Char},
    (∀ c ∈ cs, isWs c = false) → collapseWsList cs = cs := by
  intro cs
  induction cs with
  | nil => intro _; rfl
  | cons c tl ih =>
    intro h
    cases tl with
    | nil =>
      simp [collapseWsList, h c (List.mem_cons_self c [])]
    | cons d tl2 =>
      have hc := h c (List.mem_cons_self c _)
      rw [collapseWsList, hc]
      simp only [Bool.false_eq_true, if_false]
      rw [ih (fun x hx => h x (List.mem_cons_of_mem c hx))]

theorem mapGet_eq_none_iff {α : Type} {k : String} :
    ∀ {m : List (String × α)}, mapGet k m = none ↔ k ∉ m.map Prod.fst := by
  intro m
  induction m with
  | nil => simp [mapGet]
  | cons p tl ih =>
    obtain ⟨k', v⟩ := p
    by_cases h : k' = k
    · subst h
      simp [mapGet]
    · simp [mapGet, h, ih, Ne.symm h]

theorem mapGet_some_mem_keys {α : Type} {k : String} {v : α} :
    ∀ {m : List (String × α)}, mapGet k m = some v → k ∈ m.map Prod.fst := by
  intro m h
  by_contra hk
  rw [← mapGet_eq_none_iff] at hk
  rw [h] at hk
  cases hk

theorem keysOf_mapSet_of_mem {α : Type} {k : String} {v : α} :
    ∀ {m : List (String × α)}, k ∈ m.map Prod.fst →
      (mapSet k v m).map Prod.fst = m.map Prod.fst := by
  intro m
  induction m with
  | nil => intro h; cases h
  | cons p tl ih =>
    obtain ⟨k', v'⟩ := p
    intro h
    by_cases hk : k' = k
    · simp [mapSet, hk]
    · have : k ∈ tl.map Prod.fst := by
        rcases List.mem_cons.mp h with h' | h'
        · exact absurd h'.symm hk
        · exact h'
      simp [mapSet, hk, ih this]

theorem keysOf_mapSet_of_not_mem {α : Type} {k : String} {v : α} :
    ∀ {m : List (String × α)}, k ∉ m.map Prod.fst →
      (mapSet k v m).map Prod.fst = m.map Prod.fst ++ [k] := by
  intro m
  induction m with
  | nil => intro _; rfl
  | cons p tl ih =>
    obtain ⟨k', v'⟩ := p
    intro h
    simp only [List.map_cons, List.mem_cons] at h
    push_neg at h
    simp [mapSet, Ne.symm h.1, ih h.2]

theorem mem_keys_mapSet {α : Type} {k x : String} {v : α}
    {m : List (String × α)} (h : x ∈ m.map Prod.fst) :
    x ∈ (mapSet k v m).map Prod.fst := by
  by_cases hk : k ∈ m.map Prod.fst
  · rw [keysOf_mapSet_of_mem hk]; exact h
  · rw [keysOf_mapSet_of_not_mem hk]; exact List.mem_append_left _ h

theorem self_mem_keys_mapSet {α : Type} {k : String} {v : α}
    {m : List (String × α)} : k ∈ (mapSet k v m).map Prod.fst := by
  by_cases hk : k ∈ m.map Prod.fst
  · rw [keysOf_mapSet_of_mem hk]; exact hk
  · rw [keysOf_mapSet_of_not_mem hk]
    exact List.mem_append_right _ (List.mem_singleton.mpr rfl)

theorem mem_keys_dedupStep {now : Instant} {e : FilteredEvent} {x : String}
    {m : List (String × FilteredEvent)} (h : x ∈ m.map Prod.fst) :
    x ∈ (dedupStep now m e).map Prod.fst := by
  unfold dedupStep
  cases hg : mapGet (eventKey e) m with
  | none => exact mem_keys_mapSet h
  | some ex =>
    dsimp only
    by_cases hlt : (parseTimestamp now e.messageTimestamp).epochSecs >
        (parseTimestamp now ex.messageTimestamp).epochSecs
    · rw [if_pos hlt]; exact mem_keys_mapSet h
    · rw [if_neg hlt]; exact h

theorem self_mem_keys_dedupStep {now : Instant} {e : FilteredEvent}
    {m : List (String × FilteredEvent)} :
    eventKey e ∈ (dedupStep now m e).map Prod.fst := by
  unfold dedupStep
  cases hg : mapGet (eventKey e) m with
  | none => exact self_mem_keys_mapSet
  | some ex =>
    dsimp only
    by_cases hlt : (parseTimestamp now e.messageTimestamp).epochSecs >
        (parseTimestamp now ex.messageTimestamp).epochSecs
    · rw [if_pos hlt]; exact self_mem_keys_mapSet
    · rw [if_neg hlt]; exact mapGet_some_mem_keys hg

theorem mem_keys_foldl {now : Instant} {x : String} :
    ∀ {es : List FilteredEvent} {m : List (String × FilteredEvent)},
      x ∈ m.map Prod.fst → x ∈ (es.foldl (dedupStep now) m).map Prod.fst := by
  intro es
  induction es with
  | nil => intro m h; exact h
  | cons e tl ih => intro m h; exact ih (mem_keys_dedupStep h)

theorem mem_keys_foldl_of_mem {now : Instant} {e : FilteredEvent} :
    ∀ {es : List FilteredEvent} {m : List (String × FilteredEvent)},
      e ∈ es → eventKey e ∈ (es.foldl (dedupStep now) m).map Prod.fst := by
  intro es
  induction es with
  | nil => intro m h; cases h
  | cons e' tl ih =>
    intro m h
    rw [List.foldl_cons]
    rcases List.mem_cons.mp h with h' | h'
    · subst h'
      exact mem_keys_foldl self_mem_keys_dedupStep
    · exact ih h'

theorem goodMap_mapSet {α : Type} (key : α → String) {k : String} {v : α}
    (hk : k = key v) :
    ∀ {m : List (String × α)}, (∀ p ∈ m, p.1 = key p.2) →
      ∀ p ∈ mapSet k v m, p.1 = key p.2 := by
  intro m
  induction m with
  | nil =>
    intro _ p hp
    rcases List.mem_singleton.mp hp with rfl
    exact hk
  | cons q tl ih =>
    obtain ⟨k', v'⟩ := q
    intro hm p hp
    by_cases h : k' = k
    · simp only [mapSet, if_pos h] at hp
      rcases List.mem_cons.mp hp with rfl | hp'
      · rw [h, hk]
      · exact hm p (List.mem_cons_of_mem _ hp')
    · simp only [mapSet, if_neg h] at hp
      rcases List.mem_cons.mp hp with rfl | hp'
      · exact hm _ (List.mem_cons_self _ _)
      · exact ih (fun q hq => hm q (List.mem_cons_of_mem _ hq)) p hp'

theorem goodMap_dedupStep {now : Instant} {e : FilteredEvent}
    {m : List (String × FilteredEvent)} (hm : ∀ p ∈ m, p.1 = eventKey p.2) :
    ∀ p ∈ dedupStep now m e, p.1 = eventKey p.2 := by
  unfold dedupStep
  cases mapGet (eventKey e) m with
  | none => exact goodMap_mapSet eventKey rfl hm
  | some ex =>
    dsimp only
    by_cases hlt : (parseTimestamp now e.messageTimestamp).epochSecs >
        (parseTimestamp now ex.messageTimestamp).epochSecs
    · rw [if_pos hlt]; exact goodMap_mapSet eventKey rfl hm
    · rw [if_neg hlt]; exact hm

theorem goodMap_foldl {now : Instant} :
    ∀ {es : List FilteredEvent} {m : List (String × FilteredEvent)},
      (∀ p ∈ m, p.1 = eventKey p.2) →
      ∀ p ∈ es.foldl (dedupStep now) m, p.1 = eventKey p.2 := by
  intro es
  induction es with
  | nil => intro m hm; exact hm
  | cons e tl ih => intro m hm; exact ih (goodMap_dedupStep hm)

/-! ## C2: timestamp parsing postcondition -/

/-- **C2.** For every timestamp text whose cleaned form matches the full
`d/m/yy, H:MM:SS meridiem` shape (format 1), `parseTimestamp` returns the
instant `(2000+yy, m, d, h', MM, SS)` with the claimed meridiem adjustment;
in particular noon stays 12 under `p. m.` and 1 stays 1 under `a. m.`. -/
theorem parseTimestamp_full_shape :
    (∀ (now : Instant) (s : String) (d m y h mi se : Nat) (per : List Char),
      matchFormat1 (cleanTs s) = some (d, m, y, h, mi, se, per) → y < 100 →
      parseTimestamp now s =
        ⟨2000 + y, m, d,
         (if per.any (fun c => jsToLowerChar c = 'p') = true ∧ h ≠ 12 then h + 12
          else if per.any (fun c => jsToLowerChar c = 'a') = true ∧ h = 12 then 0
          else h), mi, se⟩)
    ∧ (∀ now : Instant,
        parseTimestamp now "25/07/25, 12:13:12 p. m." = ⟨2025, 7, 25, 12, 13, 12⟩)
    ∧ (∀ now : Instant,
        parseTimestamp now "25/07/25, 1:05:00 a. m." = ⟨2025, 7, 25, 1, 5, 0⟩) := by
  refine ⟨?_, fun _ => rfl, fun _ => rfl⟩
  intro now s d m y h mi se per h1 hy
  unfold parseTimestamp
  rw [h1]
  simp [buildInstant, hy]

/-- Witness for C2 at the concrete noon example. -/
theorem parseTimestamp_full_shape_witness :
    parseTimestamp ⟨2025, 1, 1, 0, 0, 0⟩ "25/07/25, 12:13:12 p. m." =
      ⟨2000 + 25, 7, 25,
       (if ['p', '.', ' ', 'm', '.'].any (fun c => jsToLowerChar c = 'p') = true ∧ 12 ≠ 12
        then 12 + 12
        else if ['p', '.', ' ', 'm', '.'].any (fun c => jsToLowerChar c = 'a') = true ∧ 12 = 12
        then 0 else 12), 13, 12⟩ :=
  parseTimestamp_full_shape.1 ⟨2025, 1, 1, 0, 0, 0⟩ "25/07/25, 12:13:12 p. m."
    25 7 25 12 13 12 ['p', '.', ' ', 'm', '.'] (by decide) (by decide)

/-! ## C6: day filtering -/

def msgLunes : WhatsAppMessage :=
  ⟨"25/07/25, 9:30:00 p. m.", "Juan", "Pichanga\nDía: lunes\n1. Ana", "raw"⟩

def msgMiercolesPlain : WhatsAppMessage :=
  ⟨"25/07/25, 9:30:00 p. m.", "Juan", "Pichanga\nDía: miercoles\n1. Ana", "raw"⟩

def msgMiercolesAccent : WhatsAppMessage :=
  ⟨"25/07/25, 9:30:00 p. m.", "Juan", "Pichanga\nDía: Miércoles \n1. Ana", "raw"⟩

/-- **C6.** Day normalization factors through lower-casing and trimming
(hence is case-insensitive and whitespace-insensitive at the ends);
`miercoles` and `miércoles` both normalize to the canonical accented day and
are admitted, `lunes` is not allowed, and an event whose extracted day is not
allow-listed is dropped with no output record. -/
theorem dayFilter_normalization :
    (∀ s t : String, jsTrimStr (jsToLowerStr s) = jsTrimStr (jsToLowerStr t) →
      normalizeDayName s = normalizeDayName t)
    ∧ normalizeDayName "miercoles" = "miércoles"
    ∧ normalizeDayName "miércoles" = "miércoles"
    ∧ isAllowedDay "miercoles" = true
    ∧ isAllowedDay "miércoles" = true
    ∧ isAllowedDay "lunes" = false
    ∧ (∀ msg : WhatsAppMessage,
        isAllowedDay (extractAcc msg.content).dayOfWeek = false →
        parseEventFromMessage msg = none)
    ∧ parseEventFromMessage msgLunes = none
    ∧ (parseEventFromMessage msgMiercolesPlain).map FilteredEvent.dayOfWeek =
        some "miércoles"
    ∧ (parseEventFromMessage msgMiercolesAccent).map FilteredEvent.dayOfWeek =
        some "miércoles" := by
  refine ⟨?_, by decide, by decide, by decide, by decide, by decide, ?_,
    by decide, by decide, by decide⟩
  · intro s t h
    simp only [normalizeDayName, h]
  · intro msg h
    simp only [parseEventFromMessage, h]
    simp

/-- Witness for C6: the congruence applied to an upper-cased padded spelling,
and the general drop rule applied to the `lunes` message. -/
theorem dayFilter_normalization_witness :
    normalizeDayName " MIÉRCOLES " = normalizeDayName "miércoles" ∧
    parseEventFromMessage msgLunes = none :=
  ⟨dayFilter_normalization.1 " MIÉRCOLES " "miércoles" (by decide),
   dayFilter_normalization.2.2.2.2.2.2.1 msgLunes (by decide)⟩

/-! ## C8: alias resolution -/

/-- **C8.** Alias lookup is exact and case-insensitive: any token whose
lower-cased form is `conde` resolves to `Spectre`; a token with no alias
entry resolves to the cleaned text with each word title-cased. -/
theorem alias_resolution :
    (∀ s : String, jsToLowerStr s = "conde" → normalizePlayerName s = "Spectre")
    ∧ (∀ s : String,
        playerAliases.find?
          (fun e => jsToLowerStr e.1 == jsToLowerStr (jsTrimStr (collapseWsStr s)))
          = none →
        normalizePlayerName s =
          ⟨joinWithSep [' '] ((splitOnChar ' ' s.data).map capFirstLowerRest)⟩) := by
  constructor
  · intro s h
    have hd : jsToLowerList s.data = "conde".data := congrArg String.data h
    have hnows := noWs_of_jsToLowerList_conde hd
    have hcol : collapseWsStr s = s := by
      show String.mk (collapseWsList s.data) = s
      rw [collapseWsList_eq_self hnows]
    have htrim : jsTrimStr s = s := by
      show String.mk (jsTrimList s.data) = s
      rw [jsTrimList_eq_self hnows]
    simp only [normalizePlayerName, hcol, htrim, h]
    rfl
  · intro s h
    simp only [normalizePlayerName, h]

/-- Witness for C8 at a mixed-case spelling of the alias key. -/
theorem alias_resolution_witness :
    normalizePlayerName "CoNdE" = "Spectre" :=
  alias_resolution.1 "CoNdE" (by decide)

/-! ## C9: timestamp parsing totality and fallback -/

/-- **C9.** When a timestamp matches none of the four shapes, the parser
returns the fallback instant (`new Date()`, modeled by `now`) rather than
failing; and timestamp parsing never discards an event: every input event
key is represented in the deduplicated output. -/
theorem parseTimestamp_total_fallback :
    (∀ (now : Instant) (s : String),
      matchFormat1 (cleanTs s) = none → matchFormat2 (cleanTs s) = none →
      matchFormat3 (cleanTs s) = none → matchFormat4 (cleanTs s) = none →
      parseTimestamp now s = now)
    ∧ (∀ (now : Instant) (es : List FilteredEvent) (e : FilteredEvent),
        e ∈ es → ∃ e' ∈ removeDuplicates now es, eventKey e' = eventKey e) := by
  constructor
  · intro now s h1 h2 h3 h4
    simp only [parseTimestamp, h1, h2, h3, h4]
  · intro now es e he
    have hkey : eventKey e ∈ (es.foldl (dedupStep now) []).map Prod.fst :=
      mem_keys_foldl_of_mem he
    have hinv : ∀ p ∈ es.foldl (dedupStep now) [], p.1 = eventKey p.2 :=
      goodMap_foldl (by intro p hp; cases hp)
    rcases List.mem_map.mp hkey with ⟨p, hp, hpk⟩
    exact ⟨p.2, List.mem_map_of_mem _ hp, by rw [← hinv p hp, hpk]⟩

/-- Witness for C9: a nonsense timestamp falls back to the supplied instant. -/
theorem parseTimestamp_total_fallback_witness :
    parseTimestamp ⟨2025, 7, 28, 0, 0, 0⟩ "mensaje eliminado" = ⟨2025, 7, 28, 0, 0, 0⟩ :=
  parseTimestamp_total_fallback.1 ⟨2025, 7, 28, 0, 0, 0⟩ "mensaje eliminado"
    (by decide) (by decide) (by decide) (by decide)

/-! ## C1: deduplication by key -/

theorem nodup_keys_mapSet {α : Type} {k : String} {v : α}
    {m : List (String × α)} (h : (m.map Prod.fst).Nodup) :
    ((mapSet k v m).map Prod.fst).Nodup := by
  by_cases hk : k ∈ m.map Prod.fst
  · rw [keysOf_mapSet_of_mem hk]; exact h
  · rw [keysOf_mapSet_of_not_mem hk]
    simp [List.nodup_append, h, hk]

theorem nodup_keys_dedupStep {now : Instant} {e : FilteredEvent}
    {m : List (String × FilteredEvent)} (h : (m.map Prod.fst).Nodup) :
    ((dedupStep now m e).map Prod.fst).Nodup := by
  unfold dedupStep
  cases mapGet (eventKey e) m with
  | none => exact nodup_keys_mapSet h
  | some ex =>
    dsimp only
    by_cases hlt : (parseTimestamp now e.messageTimestamp).epochSecs >
        (parseTimestamp now ex.messageTimestamp).epochSecs
    · rw [if_pos hlt]; exact nodup_keys_mapSet h
    · rw [if_neg hlt]; exact h

theorem nodup_keys_foldl {now : Instant} :
    ∀ {es : List FilteredEvent} {m : List (String × FilteredEvent)},
      (m.map Prod.fst).Nodup →
      ((es.foldl (dedupStep now) m).map Prod.fst).Nodup := by
  intro es
  induction es with
  | nil => intro m h; exact h
  | cons e tl ih =>
    intro m h
    rw [List.foldl_cons]
    exact ih (nodup_keys_dedupStep h)

/-- **C1.** The deduplicator keeps at most one event per
`(canonical day, raw date)` key, and between two events sharing a key it
keeps the second exactly when its parsed instant is strictly greater,
keeping the first-seen event on equal (or any non-greater) instants. -/
theorem dedup_by_key :
    (∀ (now : Instant) (es : List FilteredEvent),
      (removeDuplicates now es).Pairwise (fun a b => eventKey a ≠ eventKey b))
    ∧ (∀ (now : Instant) (e1 e2 : FilteredEvent), eventKey e1 = eventKey e2 →
        removeDuplicates now [e1, e2] =
          if (parseTimestamp now e2.messageTimestamp).epochSecs >
              (parseTimestamp now e1.messageTimestamp).epochSecs
          then [e2] else [e1]) := by
  constructor
  · intro now es
    have hnodup : ((es.foldl (dedupStep now) []).map Prod.fst).Nodup :=
      nodup_keys_foldl (by simp)
    have hinv : ∀ p ∈ es.foldl (dedupStep now) [], p.1 = eventKey p.2 :=
      goodMap_foldl (by intro p hp; cases hp)
    have hkeys : (es.foldl (dedupStep now) []).map Prod.fst =
        (es.foldl (dedupStep now) []).map (fun p => eventKey p.2) :=
      List.map_congr_left hinv
    rw [hkeys] at hnodup
    exact (List.pairwise_map).mpr ((List.pairwise_map).mp hnodup)
  · intro now e1 e2 h
    simp only [removeDuplicates, List.foldl_cons, List.foldl_nil]
    rw [show dedupStep now [] e1 = [(eventKey e1, e1)] from rfl]
    unfold dedupStep
    rw [show mapGet (eventKey e2) [(eventKey e1, e1)] = some e1 from by
      simp [mapGet, h]]
    dsimp only
    by_cases hlt : (parseTimestamp now e2.messageTimestamp).epochSecs >
        (parseTimestamp now e1.messageTimestamp).epochSecs
    · rw [if_pos hlt, if_pos hlt]
      simp [mapSet, h]
    · rw [if_neg hlt, if_neg hlt]
      simp

def c1now : Instant := ⟨2025, 7, 28, 0, 0, 0⟩

def c1e1 : FilteredEvent :=
  ⟨"Pichanga", "25/07/25", "viernes", "9pm", "Potokar", ["Ana"], 1,
   "25/07/25, 9:00:00 p. m.", "s1"⟩

def c1e2 : FilteredEvent :=
  ⟨"Pichanga", "25/07/25", "viernes", "9pm", "Potokar", ["Ana", "Bob"], 2,
   "25/07/25, 10:00:00 p. m.", "s2"⟩

/-- Witness for C1 on two concrete events sharing a key. -/
theorem dedup_by_key_witness :
    removeDuplicates c1now [c1e1, c1e2] =
      if (parseTimestamp c1now c1e2.messageTimestamp).epochSecs >
          (parseTimestamp c1now c1e1.messageTimestamp).epochSecs
      then [c1e2] else [c1e1] :=
  dedup_by_key.2 c1now c1e1 c1e2 (by decide)

/-! ## C3: aggregator end-to-end example -/

def c3e1 : FilteredEvent :=
  ⟨"Pichanga", "11/07/25", "viernes", "", "", ["A", "B"], 2, "t1", "s"⟩

def c3e2 : FilteredEvent :=
  ⟨"Pichanga", "18/07/25", "viernes", "", "", ["A ", "C"], 2, "t2", "s"⟩

def c3e3 : FilteredEvent :=
  ⟨"Pichanga", "25/07/25", "viernes", "", "", ["B"], 1, "t3", "s"⟩

/-- **C3, counterexample.** On the three-event roster example, the identity
for `A` records the single variation `"A"`: the aggregator stores
`playerName.trim()`, so the trailing-space spelling `"A "` collapses into
`"A"` and the claimed variation set of both raw spellings is not produced. -/
theorem aggregator_example_counterexample :
    (mapGet "A" (processPlayers [c3e1, c3e2, c3e3])).map PlayerStats.variations
      = some ["A"]
    ∧ (some ["A"] : Option (List String)) ≠ some ["A", "A "] :=
  ⟨by decide, by decide⟩

/-- **C3, amended.** On the three-event roster example the identity for `A`
has attendance 2 and two distinct event keys, but its variations list is the
single trimmed token `"A"`. -/
theorem aggregator_example_amended :
    mapGet "A" (processPlayers [c3e1, c3e2, c3e3]) =
      some ⟨"A", "A", 2, ["11/07/25 (viernes)", "18/07/25 (viernes)"], ["A"]⟩ := by
  decide

/-! ## C4: name cleaning -/

theorem normalizePlayerName_empty : normalizePlayerName "" = "" := rfl

/-- **C4, counterexample.** Cleaning strips a trailing `go` even when it is
the ending of a longer word: `"Diego"` cleans to `"Die"`, not `"Diego"`. -/
theorem cleaning_go_counterexample :
    cleanPlayerName "Diego" = "Die" ∧ cleanPlayerName "Diego" ≠ "Diego" :=
  ⟨by decide, by decide⟩

/-- **C4, amended.** Cleaning removes delimited annotations, invisible
markers, any trailing `go` letters (also as the ending of a longer word),
a trailing hyphen and decorative glyphs, collapses and trims whitespace
(then title-cases); the stated examples hold, and a token that cleans to
empty text is discarded by the aggregation step. -/
theorem cleaning_amended :
    cleanPlayerName "  Moises(4) " = "Moises"
    ∧ cleanPlayerName "🔥Juan Pérez-" = "Juan Pérez"
    ∧ cleanPlayerName "Juan go" = "Juan"
    ∧ cleanPlayerName "Diego" = "Die"
    ∧ (∀ (ek : String) (m : List (String × PlayerStats)) (token : String),
        cleanPlayerName token = "" → playerStep ek m token = m) := by
  refine ⟨by decide, by decide, by decide, by decide, ?_⟩
  intro ek m token h
  unfold playerStep
  by_cases hg : token = "" ∨ jsTrimStr token = "" ∨ token = "-"
  · rw [if_pos hg]
  · rw [if_neg hg]
    simp [h, normalizePlayerName_empty]

/-- Witness for C4: a token that is nothing but an annotation cleans to empty
text and leaves the aggregation map untouched. -/
theorem cleaning_amended_witness : playerStep "k" [] "(4)" = [] :=
  cleaning_amended.2.2.2.2 "k" [] "(4)" (by decide)

/-! ## C5: cluster merge semantics -/

theorem mem_dedupFirstAux [DecidableEq α] :
    ∀ (l seen : List α) (x : α),
      x ∈ dedupFirstAux seen l ↔ x ∈ l ∧ x ∉ seen := by
  intro l
  induction l with
  | nil => intro seen x; simp [dedupFirstAux]
  | cons y tl ih =>
    intro seen x
    by_cases hy : y ∈ seen
    · simp only [dedupFirstAux, if_pos hy, ih, List.mem_cons]
      constructor
      · rintro ⟨h1, h2⟩; exact ⟨Or.inr h1, h2⟩
      · rintro ⟨h1 | h1, h2⟩
        · subst h1; exact absurd hy h2
        · exact ⟨h1, h2⟩
    · simp only [dedupFirstAux, if_neg hy, List.mem_cons, ih]
      by_cases hxy : x = y
      · subst hxy; simp [hy]
      · simp [hxy, List.mem_cons]

theorem nodup_dedupFirstAux [DecidableEq α] :
    ∀ (l seen : List α), (dedupFirstAux seen l).Nodup := by
  intro l
  induction l with
  | nil => intro seen; exact List.nodup_nil
  | cons y tl ih =>
    intro seen
    by_cases hy : y ∈ seen
    · simpa [dedupFirstAux, if_pos hy] using ih seen
    · rw [dedupFirstAux, if_neg hy]
      refine List.nodup_cons.mpr ⟨?_, ih _⟩
      intro hmem
      exact ((mem_dedupFirstAux tl (y :: seen) y).mp hmem).2
        (List.mem_cons_self y seen)

theorem sublist_dedupFirstAux [DecidableEq α] :
    ∀ (l seen : List α), (dedupFirstAux seen l).Sublist l := by
  intro l
  induction l with
  | nil => intro seen; exact List.Sublist.refl []
  | cons y tl ih =>
    intro seen
    by_cases hy : y ∈ seen
    · rw [dedupFirstAux, if_pos hy]
      exact (ih seen).cons y
    · rw [dedupFirstAux, if_neg hy]
      exact (ih (y :: seen)).cons₂ y

theorem foldl_append_variations :
    ∀ (g : List PlayerStats) (init : List String),
      g.foldl (fun acc p => acc ++ p.variations) init =
        init ++ (g.map PlayerStats.variations).flatten := by
  intro g
  induction g with
  | nil => intro init; simp
  | cons p tl ih => intro init; simp [ih, List.append_assoc]

theorem foldl_add_attendance :
    ∀ (g : List PlayerStats) (init : Nat),
      g.foldl (fun acc p => acc + p.attendance) init =
        init + (g.map PlayerStats.attendance).sum := by
  intro g
  induction g with
  | nil => intro init; simp
  | cons p tl ih => intro init; simp [ih]; omega

theorem consolidatedVariations_eq (g : List PlayerStats) :
    consolidatedVariations g = dedupFirst ((g.map PlayerStats.variations).flatten) := by
  unfold consolidatedVariations
  rw [foldl_append_variations, List.nil_append]

theorem consolidateGroup_total (g : List PlayerStats) :
    (consolidateGroup g).totalAttendance = (g.map PlayerStats.attendance).sum := by
  unfold consolidateGroup
  rw [foldl_add_attendance, Nat.zero_add]

theorem consolidateGroupFirstName_total (g : List PlayerStats) :
    (consolidateGroupFirstName g).totalAttendance =
      (g.map PlayerStats.attendance).sum := by
  unfold consolidateGroupFirstName
  rw [foldl_add_attendance, Nat.zero_add]

/-- **C5.** For every cluster, the consolidated total attendance is the sum
of the member attendances (in both grouping scripts), and the consolidated
variations cell is the join of the de-duplicated union of the member
variation lists, duplicate-free, containing exactly the members' variations,
and preserving first-insertion order (it is a sublist of the concatenation). -/
theorem cluster_merge (g : List PlayerStats) :
    (consolidateGroup g).totalAttendance = (g.map PlayerStats.attendance).sum
    ∧ (consolidateGroupFirstName g).totalAttendance =
        (g.map PlayerStats.attendance).sum
    ∧ (consolidateGroup g).variations =
        ⟨joinWithSep [',', ' ']
          ((dedupFirst ((g.map PlayerStats.variations).flatten)).map String.data)⟩
    ∧ (consolidateGroupFirstName g).variations =
        ⟨joinWithSep [',', ' ']
          ((dedupFirst ((g.map PlayerStats.variations).flatten)).map String.data)⟩
    ∧ (dedupFirst ((g.map PlayerStats.variations).flatten)).Nodup
    ∧ (∀ x : String, x ∈ dedupFirst ((g.map PlayerStats.variations).flatten) ↔
        x ∈ (g.map PlayerStats.variations).flatten)
    ∧ (dedupFirst ((g.map PlayerStats.variations).flatten)).Sublist
        ((g.map PlayerStats.variations).flatten) := by
  refine ⟨consolidateGroup_total g, consolidateGroupFirstName_total g, ?_, ?_,
    nodup_dedupFirstAux _ [], ?_, sublist_dedupFirstAux _ []⟩
  · show (consolidateGroup g).variations = _
    unfold consolidateGroup
    rw [consolidatedVariations_eq]
  · show (consolidateGroupFirstName g).variations = _
    unfold consolidateGroupFirstName
    rw [consolidatedVariations_eq]
  · intro x
    rw [dedupFirst, mem_dedupFirstAux]
    simp

/-! ## C7: message assembly -/

/-- A line opens a message exactly when one of the two header patterns
matches its trimmed text. -/
def headerP (l : String) : Bool := (parseHeader (jsTrimStr l)).isSome

/-- Number of messages represented by an assembler state: flushed messages
plus the buffered one, if any. -/
def stLen (st : List WhatsAppMessage × Option WhatsAppMessage) : Nat :=
  st.1.length + (if st.2.isSome then 1 else 0)

theorem stLen_parseFileStep (st : List WhatsAppMessage × Option WhatsAppMessage)
    (l : String) :
    stLen (parseFileStep st l) = stLen st + (if headerP l then 1 else 0) := by
  obtain ⟨msgs, cur⟩ := st
  unfold parseFileStep headerP
  by_cases hb : jsTrimStr l = ""
  · rw [if_pos hb, hb]
    rw [show (parseHeader "").isSome = false from rfl]
    simp
  · rw [if_neg hb]
    cases hh : parseHeader (jsTrimStr l) with
    | some r =>
      obtain ⟨date, time, sender, content⟩ := r
      cases cur <;> simp [stLen, List.length_append]
    | none =>
      cases cur <;> simp [stLen]

theorem stLen_foldl :
    ∀ (lines : List String) (st : List WhatsAppMessage × Option WhatsAppMessage),
      stLen (lines.foldl parseFileStep st) = stLen st + lines.countP headerP := by
  intro lines
  induction lines with
  | nil => intro st; simp
  | cons l tl ih =>
    intro st
    rw [List.foldl_cons, ih, stLen_parseFileStep, List.countP_cons]
    cases hhl : headerP l
    · simp [hhl]
    · simp [hhl]
      omega

theorem parseFile_length_eq (lines : List String) :
    (parseFile lines).length = lines.countP headerP := by
  have h := stLen_foldl lines ([], none)
  rw [show stLen ([], none) = 0 from rfl, Nat.zero_add] at h
  unfold parseFile
  rcases hfold : lines.foldl parseFileStep ([], none) with ⟨msgs, cur⟩
  rw [hfold] at h
  cases cur with
  | some m =>
    simp only [stLen, Option.isSome_some, if_true] at h
    simp [List.length_append]
    omega
  | none =>
    simp only [stLen, Option.isSome_none, if_false] at h
    simpa using h

def c7Lines : List String :=
  ["antes del primer encabezado",
   "[25/07/25, 9:30:00 p. m.] Juan: Pichanga hoy",
   "Día: viernes",
   "",
   "Hora: 9",
   "[26/07/25, 10:00:00 a. m.] Ana: Lista",
   "1. Pedro"]

def c7m1 : WhatsAppMessage :=
  ⟨"25/07/25, 9:30:00 p. m.", "Juan", "Pichanga hoy\nDía: viernes\nHora: 9",
   "[25/07/25, 9:30:00 p. m.] Juan: Pichanga hoy\nDía: viernes\nHora: 9"⟩

def c7m2 : WhatsAppMessage :=
  ⟨"26/07/25, 10:00:00 a. m.", "Ana", "Lista\n1. Pedro",
   "[26/07/25, 10:00:00 a. m.] Ana: Lista\n1. Pedro"⟩

/-- **C7.** The assembler emits exactly one message per header line; on a
concrete transcript, continuation lines attach (with newline separators) to
the immediately preceding header message in input order, material before the
first header is dropped, a blank line is skipped without terminating
buffering, and the final buffered message is flushed. -/
theorem assembler_headers_and_attachment :
    (∀ lines : List String, (parseFile lines).length = lines.countP headerP)
    ∧ parseFile c7Lines = [c7m1, c7m2] :=
  ⟨parseFile_length_eq, by decide⟩

/-! ## C10: clustering partition and attendance conservation -/

section Clustering

variable (sim : String → String → ℚ) (thr : ℚ) (sc : String)

theorem scanOthers_processed_mono :
    ∀ (rest : List (Nat × PlayerStats)) (pr : List Nat) (x : Nat), x ∈ pr →
      x ∈ (scanOthers sim thr sc rest pr).2 := by
  intro rest
  induction rest with
  | nil => intro pr x hx; exact hx
  | cons q tl ih =>
    obtain ⟨j, p⟩ := q
    intro pr x hx
    simp only [scanOthers]
    by_cases hj : j ∈ pr
    · rw [if_pos hj]; exact ih pr x hx
    · rw [if_neg hj]
      by_cases hsim : thr ≤ sim sc (cleanName p.name)
      · rw [if_pos hsim]
        dsimp only
        exact ih (j :: pr) x (List.mem_cons_of_mem j hx)
      · rw [if_neg hsim]; exact ih pr x hx

theorem scanOthers_processed_sub :
    ∀ (rest : List (Nat × PlayerStats)) (pr : List Nat) (x : Nat),
      x ∈ (scanOthers sim thr sc rest pr).2 →
      x ∈ pr ∨ x ∈ rest.map Prod.fst := by
  intro rest
  induction rest with
  | nil => intro pr x hx; exact Or.inl hx
  | cons q tl ih =>
    obtain ⟨j, p⟩ := q
    intro pr x hx
    simp only [scanOthers] at hx
    by_cases hj : j ∈ pr
    · rw [if_pos hj] at hx
      rcases ih pr x hx with h | h
      · exact Or.inl h
      · exact Or.inr (List.mem_cons_of_mem _ h)
    · rw [if_neg hj] at hx
      by_cases hsim : thr ≤ sim sc (cleanName p.name)
      · rw [if_pos hsim] at hx
        dsimp only at hx
        rcases ih (j :: pr) x hx with h | h
        · rcases List.mem_cons.mp h with rfl | h'
          · exact Or.inr (List.mem_cons_self _ _)
          · exact Or.inl h'
        · exact Or.inr (List.mem_cons_of_mem _ h)
      · rw [if_neg hsim] at hx
        rcases ih pr x hx with h | h
        · exact Or.inl h
        · exact Or.inr (List.mem_cons_of_mem _ h)

theorem scanOthers_added_sim :
    ∀ (rest : List (Nat × PlayerStats)) (pr : List Nat) (q : Nat × PlayerStats),
      q ∈ (scanOthers sim thr sc rest pr).1 →
      thr ≤ sim sc (cleanName q.2.name) := by
  intro rest
  induction rest with
  | nil => intro pr q hq; cases hq
  | cons w tl ih =>
    obtain ⟨j, p⟩ := w
    intro pr q hq
    simp only [scanOthers] at hq
    by_cases hj : j ∈ pr
    · rw [if_pos hj] at hq; exact ih pr q hq
    · rw [if_neg hj] at hq
      by_cases hsim : thr ≤ sim sc (cleanName p.name)
      · rw [if_pos hsim] at hq
        dsimp only at hq
        rcases List.mem_cons.mp hq with rfl | hq'
        · exact hsim
        · exact ih (j :: pr) q hq'
      · rw [if_neg hsim] at hq; exact ih pr q hq

theorem scanOthers_perm :
    ∀ (rest : List (Nat × PlayerStats)) (pr : List Nat),
      (rest.map Prod.fst).Nodup →
      (rest.filter (fun q => decide (q.1 ∉ (scanOthers sim thr sc rest pr).2))
        ++ (scanOthers sim thr sc rest pr).1).Perm
        (rest.filter (fun q => decide (q.1 ∉ pr))) := by
  intro rest
  induction rest with
  | nil => intro pr _; simp [scanOthers]
  | cons w tl ih =>
    obtain ⟨j, p⟩ := w
    intro pr hnd
    have hjtl : j ∉ tl.map Prod.fst := (List.nodup_cons.mp hnd).1
    have hndtl : (tl.map Prod.fst).Nodup := (List.nodup_cons.mp hnd).2
    simp only [scanOthers]
    by_cases hj : j ∈ pr
    · rw [if_pos hj]
      have hj2 : j ∈ (scanOthers sim thr sc tl pr).2 :=
        scanOthers_processed_mono sim thr sc tl pr j hj
      rw [List.filter_cons, List.filter_cons,
        if_neg (by simp [hj2]), if_neg (by simp [hj])]
      exact ih pr hndtl
    · rw [if_neg hj]
      by_cases hsim : thr ≤ sim sc (cleanName p.name)
      · rw [if_pos hsim]
        dsimp only
        have hjr : j ∈ (scanOthers sim thr sc tl (j :: pr)).2 :=
          scanOthers_processed_mono sim thr sc tl (j :: pr) j
            (List.mem_cons_self _ _)
        rw [List.filter_cons, List.filter_cons,
          if_neg (by simp [hjr]), if_pos (by simp [hj])]
        have hfe : tl.filter (fun q => decide (q.1 ∉ (j :: pr)))
            = tl.filter (fun q => decide (q.1 ∉ pr)) := by
          apply List.filter_congr
          intro q hq
          have hne : q.1 ≠ j := fun he => hjtl (he ▸ List.mem_map_of_mem Prod.fst hq)
          simp [List.mem_cons, hne]
        exact List.perm_middle.trans
          ((hfe ▸ ih (j :: pr) hndtl).cons (j, p))
      · rw [if_neg hsim]
        have hjr : j ∉ (scanOthers sim thr sc tl pr).2 := by
          intro hmem
          rcases scanOthers_processed_sub sim thr sc tl pr j hmem with h | h
          · exact hj h
          · exact hjtl h
        rw [List.filter_cons, List.filter_cons,
          if_pos (by simp [hjr]), if_pos (by simp [hj]), List.cons_append]
        exact (ih pr hndtl).cons (j, p)

theorem groupLoop_join_perm :
    ∀ (rem : List (Nat × PlayerStats)) (pr : List Nat),
      (rem.map Prod.fst).Nodup →
      ((groupLoop sim thr rem pr).flatten).Perm
        (rem.filter (fun q => decide (q.1 ∉ pr))) := by
  intro rem
  induction rem with
  | nil =>
    intro pr _
    rw [show groupLoop sim thr [] pr = [] from rfl]
    simp
  | cons w tl ih =>
    obtain ⟨i, p⟩ := w
    intro pr hnd
    have hitl : i ∉ tl.map Prod.fst := (List.nodup_cons.mp hnd).1
    have hndtl : (tl.map Prod.fst).Nodup := (List.nodup_cons.mp hnd).2
    simp only [groupLoop]
    by_cases hi : i ∈ pr
    · rw [if_pos hi, List.filter_cons, if_neg (by simp [hi])]
      exact ih pr hndtl
    · rw [if_neg hi]
      rw [List.flatten_cons, List.filter_cons, if_pos (by simp [hi]),
        List.cons_append]
      apply List.Perm.cons
      have hfe : tl.filter
            (fun q => decide (q.1 ∉ (i :: (scanOthers sim thr (cleanName p.name) tl pr).2)))
          = tl.filter
            (fun q => decide (q.1 ∉ (scanOthers sim thr (cleanName p.name) tl pr).2)) := by
        apply List.filter_congr
        intro q hq
        have hne : q.1 ≠ i := fun he => hitl (he ▸ List.mem_map_of_mem Prod.fst hq)
        simp [List.mem_cons, hne]
      have h2 := ih (i :: (scanOthers sim thr (cleanName p.name) tl pr).2) hndtl
      rw [hfe] at h2
      exact ((List.Perm.append_left _ h2).trans List.perm_append_comm).trans
        (scanOthers_perm sim thr _ tl pr hndtl)

theorem groupLoop_members :
    ∀ (rem : List (Nat × PlayerStats)) (pr : List Nat)
      (g : List (Nat × PlayerStats)), g ∈ groupLoop sim thr rem pr →
      g ≠ [] ∧ ∀ q ∈ g.tail,
        thr ≤ sim (cleanName g.headI.2.name) (cleanName q.2.name) := by
  intro rem
  induction rem with
  | nil => intro pr g hg; cases hg
  | cons w tl ih =>
    obtain ⟨i, p⟩ := w
    intro pr g hg
    simp only [groupLoop] at hg
    by_cases hi : i ∈ pr
    · rw [if_pos hi] at hg; exact ih pr g hg
    · rw [if_neg hi] at hg
      rcases List.mem_cons.mp hg with rfl | hg'
      · refine ⟨by simp, ?_⟩
        intro q hq
        exact scanOthers_added_sim sim thr _ tl pr q hq
      · exact ih _ g hg'

theorem groupLoop_heads_sublist :
    ∀ (rem : List (Nat × PlayerStats)) (pr : List Nat),
      ((groupLoop sim thr rem pr).map (fun g => g.headI)).Sublist rem := by
  intro rem
  induction rem with
  | nil =>
    intro pr
    rw [show groupLoop sim thr [] pr = [] from rfl]
    simp
  | cons w tl ih =>
    obtain ⟨i, p⟩ := w
    intro pr
    simp only [groupLoop]
    by_cases hi : i ∈ pr
    · rw [if_pos hi]
      exact (ih pr).cons (i, p)
    · rw [if_neg hi]
      rw [List.map_cons]
      exact (ih _).cons₂ (i, p)

end Clustering

theorem flatten_map_map (L : List (List (Nat × PlayerStats))) :
    (L.map (List.map Prod.snd)).flatten = L.flatten.map Prod.snd := by
  induction L with
  | nil => rfl
  | cons g tl ih =>
    rw [List.map_cons, List.flatten_cons, List.flatten_cons, List.map_append, ih]

theorem sum_map_sum (L : List (List PlayerStats)) :
    (L.map (fun g => (g.map PlayerStats.attendance).sum)).sum =
      ((L.flatten).map PlayerStats.attendance).sum := by
  induction L with
  | nil => rfl
  | cons g tl ih =>
    rw [List.map_cons, List.sum_cons, List.flatten_cons, List.map_append,
      List.sum_append, ih]

theorem headI_map_snd (l : List (Nat × PlayerStats)) (h : l ≠ []) :
    (l.map Prod.snd).headI = l.headI.2 := by
  cases l with
  | nil => exact absurd rfl h
  | cons a tl => rfl

theorem tail_map_snd (l : List (Nat × PlayerStats)) :
    (l.map Prod.snd).tail = l.tail.map Prod.snd := by
  cases l with
  | nil => rfl
  | cons a tl => rfl

/-- **C10.** For any similarity metric, the greedy grouping is a partition:
the clusters flatten to a permutation of the input (each identity lands in
exactly one cluster), every non-seed member is at least threshold-similar to
its cluster seed, the seeds appear in input order (the heads form a sublist
of the input), and consolidation conserves total attendance. -/
theorem clustering_partition (sim : String → String → ℚ)
    (players : List PlayerStats) :
    ((groupSimilarPlayers sim players).flatten).Perm players
    ∧ (∀ g ∈ groupSimilarPlayers sim players, g ≠ [] ∧
        ∀ p ∈ g.tail,
          similarityThreshold ≤ sim (cleanName g.headI.name) (cleanName p.name))
    ∧ ((groupSimilarPlayers sim players).map (fun g => g.headI)).Sublist players
    ∧ (((groupSimilarPlayers sim players).map consolidateGroup).map
         ConsolidatedPlayer.totalAttendance).sum
        = (players.map PlayerStats.attendance).sum := by
  have hnd : (players.enum.map Prod.fst).Nodup := by
    rw [List.enum_map_fst]; exact List.nodup_range _
  have hperm : ((groupSimilarPlayers sim players).flatten).Perm players := by
    unfold groupSimilarPlayers
    rw [flatten_map_map]
    have h := groupLoop_join_perm sim similarityThreshold players.enum [] hnd
    have hfe : players.enum.filter (fun q => decide (q.1 ∉ ([] : List Nat)))
        = players.enum := by
      apply List.filter_eq_self.mpr
      intro a _
      simp
    rw [hfe] at h
    have h2 := h.map Prod.snd
    rwa [List.enum_map_snd] at h2
  refine ⟨hperm, ?_, ?_, ?_⟩
  · intro g hg
    unfold groupSimilarPlayers at hg
    rcases List.mem_map.mp hg with ⟨gi, hgi, rfl⟩
    have hm := groupLoop_members sim similarityThreshold players.enum [] gi hgi
    refine ⟨by simpa using hm.1, ?_⟩
    intro p hp
    rw [tail_map_snd] at hp
    rcases List.mem_map.mp hp with ⟨q, hq, rfl⟩
    rw [headI_map_snd gi hm.1]
    exact hm.2 q hq
  · unfold groupSimilarPlayers
    have hsub := groupLoop_heads_sublist sim similarityThreshold players.enum []
    have hmap := hsub.map Prod.snd
    rw [List.enum_map_snd] at hmap
    have heq : ((groupLoop sim similarityThreshold players.enum []).map
          (List.map Prod.snd)).map (fun g => g.headI)
        = ((groupLoop sim similarityThreshold players.enum []).map
            (fun g => g.headI)).map Prod.snd := by
      rw [List.map_map, List.map_map]
      apply List.map_congr_left
      intro gi hgi
      exact headI_map_snd gi
        (groupLoop_members sim similarityThreshold players.enum [] gi hgi).1
    rw [heq]
    exact hmap
  · have h1 : ((groupSimilarPlayers sim players).map consolidateGroup).map
        ConsolidatedPlayer.totalAttendance
        = (groupSimilarPlayers sim players).map
            (fun g => (g.map PlayerStats.attendance).sum) := by
      rw [List.map_map]
      apply List.map_congr_left
      intro g _
      exact consolidateGroup_total g
    rw [h1, sum_map_sum]
    exact (hperm.map PlayerStats.attendance).sum_eq

def simConst : String → String → ℚ := fun _ _ => 1

def c10p1 : PlayerStats := ⟨"Jose Perez", "jose perez", 3, [], ["Jose Perez"]⟩

def c10p2 : PlayerStats := ⟨"Jose Peres", "jose peres", 2, [], ["Jose Peres"]⟩

/-- Witness for C10: under a constant metric of 1, the second player joins
the first player's cluster and is threshold-similar to the seed. -/
theorem clustering_partition_witness :
    similarityThreshold ≤
      simConst (cleanName ([c10p1, c10p2].headI.name)) (cleanName c10p2.name) :=
  ((clustering_partition simConst [c10p1, c10p2]).2.1 [c10p1, c10p2]
    (by decide)).2 c10p2 (by decide)

end SorteoPipeline
